import Mathlib

/-!
Verification of the fixed-point decimal arithmetic kernel
(`src/primitives/arithmetic/src/fixed.rs`, macro `implement_fixed!`).

The macro is parameterized by an inner signed integer type, its same-width
unsigned counterpart, a half-width unsigned type, a per-thing ratio type,
a scale divisor `DIV` (a positive power of ten) and its decimal precision.
We embed the inner signed type of width `bits` as integers in
`[-(2^(bits-1)), 2^(bits-1) - 1]`, the unsigned type as naturals below
`2^bits`, and a fixed-point value by its raw inner integer (the struct is a
single-field wrapper, `from_inner`/`into_inner` are the identity).
-/

/-- Compile-time parameters of one instantiation of `implement_fixed!`:
inner signed width `bits`, decimal precision `prec` (so `DIV = 10 ^ prec`),
half-width unsigned width `prevBits`, and the associated per-thing ratio
type's `ACCURACY` constant `acc`. -/
structure FixedParams where
  bits : Nat
  prec : Nat
  prevBits : Nat
  acc : Int

namespace Fixed

/-- Largest value of the inner signed type (`Inner::max_value()`). -/
def maxInner (P : FixedParams) : Int := 2 ^ (P.bits - 1) - 1

/-- Smallest value of the inner signed type (`Inner::min_value()`). -/
def minInner (P : FixedParams) : Int := -(2 ^ (P.bits - 1))

/-- The scale divisor `DIV = 10 ^ precision` (the spec fixes the divisor to
be a positive power of ten). -/
def DIV (P : FixedParams) : Int := 10 ^ P.prec

/-- Largest value of the same-width unsigned type (`Unsigned::max_value()`),
as a natural number. -/
def maxUnsigned (P : FixedParams) : Nat := 2 ^ P.bits - 1

/-- The inner value `n` is representable in the inner signed type. -/
def InRange (P : FixedParams) (n : Int) : Prop :=
  minInner P ≤ n ∧ n ≤ maxInner P

instance (P : FixedParams) (n : Int) : Decidable (InRange P n) := by
  unfold InRange; infer_instance

/-- Well-formedness of an instantiation, as documented by the spec: the
inner type is a genuine multi-bit signed type of width at most 128 (the
widened helper works on `u128`), the divisor is a positive power of ten
that is representable in the inner type, the divisor fits the half-width
unsigned type (the spec's invariant that `inner % DIV` fits `PrevUnsigned`),
and the ratio type's accuracy is positive. -/
def Valid (P : FixedParams) : Prop :=
  2 ≤ P.bits ∧ P.bits ≤ 128 ∧ 1 ≤ P.prec ∧ DIV P ≤ maxInner P ∧
    DIV P ≤ 2 ^ P.prevBits ∧ 0 < P.acc

instance (P : FixedParams) : Decidable (Valid P) := by
  unfold Valid; infer_instance

/-- The `Fixed64` instantiation: `i64` inner, `u64` unsigned, `u32`
half-width, `Perbill` ratio (accuracy `10^9`), `DIV = 10^9`. -/
def P64 : FixedParams := ⟨64, 9, 32, 10 ^ 9⟩

/-- A signed `as`-cast of the inner value into the same-width unsigned type
(`x as Unsigned`): reduction modulo `2 ^ bits`, yielding a natural. -/
def castU (P : FixedParams) (n : Int) : Nat := (n % 2 ^ P.bits).toNat

/-- A signed `as`-cast into `u128` (`x as u128`): reduction modulo `2^128`. -/
def castU128 (n : Int) : Nat := (n % 2 ^ 128).toNat

/-- Result of a checked inner-type operation: `some` exactly when the
mathematical result is representable (this is `iN::checked_add` /
`checked_sub` / `checked_mul` applied to the already-computed value). -/
def checkedOf (P : FixedParams) (n : Int) : Option Int :=
  if InRange P n then some n else none

/-- Saturation of a mathematical result into the inner type's range; this is
what the `iN::saturating_*` primitives return. -/
def satOf (P : FixedParams) (n : Int) : Int :=
  max (minInner P) (min (maxInner P) n)

/-- The inner type's `saturating_mul`. -/
def saturating_mulInner (P : FixedParams) (a b : Int) : Int := satOf P (a * b)

/-- The inner type's `checked_div`: `none` on a zero divisor or on the one
unrepresentable quotient `MIN / -1`; otherwise truncating division. -/
def checked_divInner (P : FixedParams) (a b : Int) : Option Int :=
  if b = 0 ∨ (a = minInner P ∧ b = -1) then none else some (Int.tdiv a b)

/-- Modelled from the spec: the widened-arithmetic helper
`multiply_by_rational(a, b, c)` (declared outside this crate's `src/`),
computing `floor(a * b / c)` on `u128` magnitudes with an intermediate wide
enough that `a * b` never overflows; it fails exactly when `c == 0` or the
final result does not fit back into 128 bits. -/
def multiply_by_rational (a b c : Nat) : Option Nat :=
  if c = 0 then none
  else if a * b / c < 2 ^ 128 then some (a * b / c) else none

/-- The sign-magnitude step used by every signed multiply/divide:
`if lhs.is_negative() { lhs = lhs.saturating_mul(-1); }` — note that this
saturates, so the magnitude of `MIN` comes out as `MAX`. -/
def absSat (P : FixedParams) (n : Int) : Int :=
  if n < 0 then saturating_mulInner P n (-1) else n

/-- `from_inner` / `into_inner` are the identity on the raw inner value, so
a fixed-point value is represented by its inner integer directly. -/
def from_inner (n : Int) : Int := n

/-- `from_integer(int)`: `Self(int.saturating_mul(Self::DIV))`. -/
def from_integer (P : FixedParams) (int : Int) : Int :=
  saturating_mulInner P int (DIV P)

/-- `checked_from_integer(int)`: `int.checked_mul(Self::DIV)`. -/
def checked_from_integer (P : FixedParams) (int : Int) : Option Int :=
  checkedOf P (int * DIV P)

/-- `zero()`. -/
def zero : Int := 0

/-- `one()`: `Self(Self::DIV)`. -/
def one (P : FixedParams) : Int := DIV P

/-- `checked_add`: delegates to the inner checked add. -/
def checked_add (P : FixedParams) (x y : Int) : Option Int :=
  checkedOf P (x + y)

/-- `checked_sub`: delegates to the inner checked sub. -/
def checked_sub (P : FixedParams) (x y : Int) : Option Int :=
  checkedOf P (x - y)

/-- `saturating_add`: delegates to the inner saturating add. -/
def saturating_add (P : FixedParams) (x y : Int) : Int := satOf P (x + y)

/-- `saturating_sub`: delegates to the inner saturating sub. -/
def saturating_sub (P : FixedParams) (x y : Int) : Int := satOf P (x - y)

/-- `checked_mul(self, rhs)`: combine signums multiplicatively, take
saturated magnitudes, run `multiply_by_rational(lhs as u128, rhs as u128,
DIV as u128)`, narrow the magnitude back into the inner type
(`TryInto::<Inner>::try_into(n)`, which succeeds iff `n ≤ MAX`), and
re-apply the sign (`Self(n * signum)`). -/
def checked_mul (P : FixedParams) (x y : Int) : Option Int :=
  let signum := Int.sign x * Int.sign y
  let lhs := absSat P x
  let rhs := absSat P y
  (multiply_by_rational (castU128 lhs) (castU128 rhs) (castU128 (DIV P))).bind
    (fun n => if (n : Int) ≤ maxInner P then some ((n : Int) * signum) else none)

/-- `checked_div(self, rhs)`: `none` on a zero divisor or on
`(MIN, from_integer(-1))`; `Some(self)` when `self == 0`; otherwise the
signum quotient, saturated magnitudes, and
`multiply_by_rational(lhs as u128, DIV as u128, rhs as u128)`, narrowed and
re-signed exactly as in `checked_mul`. -/
def checked_div (P : FixedParams) (x y : Int) : Option Int :=
  if Int.sign y = 0 ∨ (x = minInner P ∧ y = from_integer P (-1)) then none
  else if x = 0 then some x
  else
    let signum := Int.tdiv (Int.sign x) (Int.sign y)
    let lhs := absSat P x
    let rhs := absSat P y
    (multiply_by_rational (castU128 lhs) (castU128 (DIV P)) (castU128 rhs)).bind
      (fun n => if (n : Int) ≤ maxInner P then some ((n : Int) * signum) else none)

/-- `saturating_mul`: `checked_mul` on success, otherwise the bound chosen
by the sign of `self.signum() * rhs.signum()`. -/
def saturating_mul (P : FixedParams) (x y : Int) : Int :=
  (checked_mul P x y).getD
    (if Int.sign x * Int.sign y < 0 then minInner P else maxInner P)

/-- `saturating_abs`: `max_value()` at `MIN`, else negate if negative. -/
def saturating_abs (P : FixedParams) (x : Int) : Int :=
  if x = minInner P then maxInner P
  else if x < 0 then x * (-1) else x

/-- Bounds of the external integer type `N` used by the cross-width
operations (`N: Bounded + ...`): `N` holds exactly the integers in
`[nmin, nmax]`. -/
structure NParams where
  nmin : Int
  nmax : Int

namespace NP

/-- Well-formedness of the external type `N`: it has a `Default` (zero) and
an infallible `From<PrevUnsigned>`, so its range contains `0` and `1`. -/
def Valid (Q : NParams) : Prop := Q.nmin ≤ 0 ∧ 1 ≤ Q.nmax

instance (Q : NParams) : Decidable (Valid Q) := by
  unfold Valid; infer_instance

/-- The value `n` is representable in `N`. -/
def InRangeN (Q : NParams) (n : Int) : Prop := Q.nmin ≤ n ∧ n ≤ Q.nmax

instance (Q : NParams) (n : Int) : Decidable (InRangeN Q n) := by
  unfold InRangeN; infer_instance

/-- Saturation into `N`'s range (`saturated_into`, `Saturating` on `N`). -/
def satN (Q : NParams) (n : Int) : Int := max Q.nmin (min Q.nmax n)

/-- `N::saturating_mul`. -/
def satMulN (Q : NParams) (a b : Int) : Int := satN Q (a * b)

/-- `N::saturating_add`. -/
def satAddN (Q : NParams) (a b : Int) : Int := satN Q (a + b)

/-- `N::saturating_sub`. -/
def satSubN (Q : NParams) (a b : Int) : Int := satN Q (a - b)

/-- An `N`-parameterization matching `i128`. -/
def Q128 : NParams := ⟨-(2 ^ 127), 2 ^ 127 - 1⟩

end NP

end Fixed

namespace Fixed

open NP

/-- `checked_mul_int(self, other)`: narrow `other` into the inner type
(`N::try_into`), take the saturated magnitudes of `self.0` and `other`,
multiply in the same-width unsigned type with `checked_mul`, checked-divide
by `DIV`, narrow the magnitude back into the inner type, re-apply the sign
(`n * signum`), and narrow into `N`. -/
def checked_mul_int (P : FixedParams) (Q : NParams) (x other : Int) :
    Option Int :=
  if InRange P other then
    let lhs := absSat P x
    let signum := Int.sign x * Int.sign other
    let rhs := absSat P other
    -- `(lhs as Unsigned).checked_mul(rhs as Unsigned)`
    if castU P lhs * castU P rhs ≤ maxUnsigned P then
      -- `n.checked_div(Self::DIV as Self::Unsigned)`
      if castU P (DIV P) = 0 then none
      else
        let n := castU P lhs * castU P rhs / castU P (DIV P)
        if (n : Int) ≤ maxInner P then
          if InRangeN Q ((n : Int) * signum) then some ((n : Int) * signum)
          else none
        else none
    else none
  else none

/-- `checked_div_int(self, other)`: narrow `other` into the inner type,
checked-divide `self.0` by it, checked-divide by `DIV`, narrow into `N`. -/
def checked_div_int (P : FixedParams) (Q : NParams) (x other : Int) :
    Option Int :=
  if InRange P other then
    (checked_divInner P x other).bind (fun n =>
      (checked_divInner P n (DIV P)).bind (fun m =>
        if InRangeN Q m then some m else none))
  else none

/-- `saturating_mul_int`: `checked_mul_int` on success; on failure, the `N`
bound chosen by the sign of `other.signum() * self.0.signum()`. -/
def saturating_mul_int (P : FixedParams) (Q : NParams) (x other : Int) :
    Int :=
  (checked_mul_int P Q x other).getD
    (if Int.sign other * Int.sign x < 0 then Q.nmin else Q.nmax)

/-- `checked_from_rational(n, d)`: `none` on `d == 0`; narrow `n` into the
inner type, `checked_mul(DIV)`, `checked_div(d)`. -/
def checked_from_rational (P : FixedParams) (n d : Int) : Option Int :=
  if d = 0 then none
  else if InRange P n then
    (checkedOf P (n * DIV P)).bind (fun a => checked_divInner P a d)
  else none

/-- Fuel-driven bit length: with enough fuel, the number of binary digits
of `n`. -/
def bitLenAux : Nat → Nat → Nat
  | 0, _ => 0
  | fuel + 1, n => if n = 0 then 0 else bitLenAux fuel (n / 2) + 1

/-- The bit length of a `u64` value, i.e. `64 - exp.leading_zeros()`
(`msb_pos` in `saturating_pow`). -/
def bitLen (n : Nat) : Nat := bitLenAux 64 n

/-- `saturating_pow(self, exp)`: binary exponentiation over the bits of
`exp` (an `usize`, hence below `2^64`): for each bit position `i` below the
most significant set bit (`msb_pos = 64 - exp.leading_zeros()`), multiply
the accumulator by the running power when bit `i` of `exp` is set
(`((1 << i) & exp) > 0`), and square the running power, all with
`saturating_mul`. -/
def saturating_pow (P : FixedParams) (x : Int) (exp : Nat) : Int :=
  if exp = 0 then from_integer P 1
  else
    ((List.range (bitLen exp)).foldl
      (fun st i =>
        (if exp.testBit i then saturating_mul P st.1 st.2 else st.1,
         saturating_mul P st.2 st.2))
      (from_integer P 1, x)).1

/-- Modelled from the spec: the per-thing ratio type's overflow-safe scalar
multiply (an external collaborator, not under `src/`): multiplying `b` by
the ratio `f / ACCURACY`, i.e. `floor`-style `b * f / acc` with truncating
division. -/
def perthing_mul (acc f b : Int) : Int := Int.tdiv (b * f) acc

/-- `saturated_multiply_accumulate(self, int)`: split the unsigned
magnitude `parts` of `self.0` (with `checked_abs`'s `MIN` fallback
`MAX as Unsigned + 1`) into `parts / DIV` (saturated into `N`) and
`parts % DIV` (as `PrevUnsigned`); accumulate
`int.saturating_mul(natural_parts)` plus the per-thing contribution of the
fractional part, and add it to (or subtract it from) `int`. -/
def saturated_multiply_accumulate (P : FixedParams) (Q : NParams)
    (x int : Int) : Int :=
  let div : Int := castU P (DIV P)
  let positive := 0 < x
  let parts : Int := if x = minInner P then maxInner P + 1 else |x|
  let natural_parts := Int.tdiv parts div
  let naturalN := satN Q natural_parts
  let fractional_parts : Int := Int.tmod parts div % 2 ^ P.prevBits
  let n := satMulN Q int naturalN
  let p := perthing_mul P.acc fractional_parts int
  let excess := satAddN Q n p
  if positive then satAddN Q int excess else satSubN Q int excess

/-- Fuel-driven base-ten digits of `n`, least significant first; with fuel
at least `n` this agrees with `Nat.digits 10 n`. -/
def decDigitsAux : Nat → Nat → List Nat
  | 0, _ => []
  | fuel + 1, n => if n = 0 then [] else n % 10 :: decDigitsAux fuel (n / 10)

/-- Base-ten digits of `n`, least significant first. -/
def decDigitsLE (n : Nat) : List Nat := decDigitsAux n n

/-- `get_str`: the decimal rendering of the raw inner value
(`format!("{}", self.0)`), as the list of its ASCII codes. The digits of
the magnitude most-significant first (`"0"` for zero), preceded by `-`
(code 45) when negative. -/
def get_str (x : Int) : List Nat :=
  let mag := if x.natAbs = 0 then [48]
    else (decDigitsLE x.natAbs).reverse.map (fun d => 48 + d)
  if x < 0 then 45 :: mag else mag

/-- One step of the decimal accumulator of the inner type's `from_str`
parser: reject a non-digit code, otherwise multiply by ten and add. -/
def parseStep (a : Option Nat) (c : Nat) : Option Nat :=
  a.bind (fun v => if 48 ≤ c ∧ c ≤ 57 then some (10 * v + (c - 48)) else none)

/-- `try_from_str`: parse the string as the inner type's native decimal
parser does (`s.parse::<Inner>()`) — an optional `+`/`-` sign followed by a
nonempty run of digits — and wrap with `from_inner`. The parser's per-step
checked accumulation fails exactly when the full magnitude is out of the
inner range (the accumulator grows monotonically), so the range check is
applied to the final value. `none` models `Err("invalid string input")`. -/
def try_from_str (P : FixedParams) (s : List Nat) : Option Int :=
  match s with
  | [] => none
  | c :: rest =>
    if (if c = 45 ∨ c = 43 then rest else s) = [] then none
    else ((if c = 45 ∨ c = 43 then rest else s).foldl parseStep (some 0)).bind
      (fun v =>
        if InRange P (if c = 45 then -(v : Int) else (v : Int))
        then some (if c = 45 then -(v : Int) else (v : Int)) else none)

/-!
Panic-instrumented embeddings. Rust's checked/saturating primitives never
panic, but the bodies above also contain language-native arithmetic
(`n * signum`, `self.0 * -1`, the signum products, the unsigned `/`/`%` in
the accumulator): with overflow checks on, those abort on overflow, and
`/`/`%` abort on a zero divisor. The `F`-variants below re-run each body
with every such site made explicit, returning `none` for an abort; the
totality claim is that on representable inputs they always return `some`
of the plain result.
-/

/-- A language-native inner-type multiplication with the overflow abort
made explicit. -/
def rawMulF (P : FixedParams) (a b : Int) : Option Int :=
  if InRange P (a * b) then some (a * b) else none

/-- A language-native inner-type division with its aborts (zero divisor,
`MIN / -1`) made explicit. -/
def rawDivF (P : FixedParams) (a b : Int) : Option Int :=
  if b = 0 ∨ (a = minInner P ∧ b = -1) then none else some (Int.tdiv a b)

/-- `checked_add` contains only the inner checked add: no abort site. -/
def checked_addF (P : FixedParams) (x y : Int) : Option (Option Int) :=
  some (checked_add P x y)

/-- `checked_sub` contains only the inner checked sub: no abort site. -/
def checked_subF (P : FixedParams) (x y : Int) : Option (Option Int) :=
  some (checked_sub P x y)

/-- `checked_from_integer` contains only the inner checked mul. -/
def checked_from_integerF (P : FixedParams) (int : Int) : Option (Option Int) :=
  some (checked_from_integer P int)

/-- `checked_from_rational` is a chain of checked narrowing, checked mul
and checked div: no abort site. -/
def checked_from_rationalF (P : FixedParams) (n d : Int) :
    Option (Option Int) :=
  some (checked_from_rational P n d)

/-- `checked_div_int` is a chain of checked narrowing and checked divs. -/
def checked_div_intF (P : FixedParams) (Q : NParams) (x other : Int) :
    Option (Option Int) :=
  some (checked_div_int P Q x other)

/-- `saturating_add` contains only the inner saturating add. -/
def saturating_addF (P : FixedParams) (x y : Int) : Option Int :=
  some (saturating_add P x y)

/-- `saturating_sub` contains only the inner saturating sub. -/
def saturating_subF (P : FixedParams) (x y : Int) : Option Int :=
  some (saturating_sub P x y)

/-- `checked_mul` with its abort site — the re-signing `Self(n * signum)`
on the inner type — made explicit. -/
def checked_mulF (P : FixedParams) (x y : Int) : Option (Option Int) :=
  let signum := Int.sign x * Int.sign y
  let lhs := absSat P x
  let rhs := absSat P y
  match multiply_by_rational (castU128 lhs) (castU128 rhs) (castU128 (DIV P)) with
  | none => some none
  | some n =>
    if (n : Int) ≤ maxInner P then (rawMulF P (n : Int) signum).map some
    else some none

/-- `checked_div` with its abort sites — the signum quotient
`self.0.signum() / rhs.0.signum()` and the re-signing `Self(n * signum)` —
made explicit. -/
def checked_divF (P : FixedParams) (x y : Int) : Option (Option Int) :=
  if Int.sign y = 0 ∨ (x = minInner P ∧ y = from_integer P (-1)) then some none
  else if x = 0 then some (some x)
  else
    (rawDivF P (Int.sign x) (Int.sign y)).bind (fun signum =>
      match multiply_by_rational (castU128 (absSat P x)) (castU128 (DIV P))
          (castU128 (absSat P y)) with
      | none => some none
      | some n =>
        if (n : Int) ≤ maxInner P then (rawMulF P (n : Int) signum).map some
        else some none)

/-- `checked_mul_int` with its abort site `n * signum` made explicit. -/
def checked_mul_intF (P : FixedParams) (Q : NParams) (x other : Int) :
    Option (Option Int) :=
  if InRange P other then
    let lhs := absSat P x
    let signum := Int.sign x * Int.sign other
    let rhs := absSat P other
    if castU P lhs * castU P rhs ≤ maxUnsigned P then
      if castU P (DIV P) = 0 then some none
      else
        let n := castU P lhs * castU P rhs / castU P (DIV P)
        if (n : Int) ≤ maxInner P then
          (rawMulF P (n : Int) signum).map (fun r =>
            if InRangeN Q r then some r else none)
        else some none
    else some none
  else some none

/-- `saturating_mul` with the abort sites of `checked_mul` and of the
overflow branch's signum product made explicit. -/
def saturating_mulF (P : FixedParams) (x y : Int) : Option Int :=
  (checked_mulF P x y).bind (fun o =>
    match o with
    | some r => some r
    | none =>
      (rawMulF P (Int.sign x) (Int.sign y)).map (fun s =>
        if s < 0 then minInner P else maxInner P))

/-- `saturating_abs` with the abort site `self.0 * -1` made explicit. -/
def saturating_absF (P : FixedParams) (x : Int) : Option Int :=
  if x = minInner P then some (maxInner P)
  else if x < 0 then rawMulF P x (-1) else some x

/-- `saturating_mul_int` with the abort sites of `checked_mul_int` and of
the overflow branch's signum product made explicit. -/
def saturating_mul_intF (P : FixedParams) (Q : NParams) (x other : Int) :
    Option Int :=
  (checked_mul_intF P Q x other).bind (fun o =>
    match o with
    | some r => some r
    | none =>
      (rawMulF P (Int.sign other) (Int.sign x)).map (fun s =>
        if s < 0 then Q.nmin else Q.nmax))

/-- `saturating_pow` with the abort sites of every `saturating_mul` made
explicit. -/
def saturating_powF (P : FixedParams) (x : Int) (exp : Nat) :
    Option Int :=
  if exp = 0 then some (from_integer P 1)
  else
    ((List.range (bitLen exp)).foldlM
      (fun (st : Int × Int) i =>
        (if exp.testBit i then saturating_mulF P st.1 st.2
          else some st.1).bind (fun r =>
          (saturating_mulF P st.2 st.2).map (fun p => (r, p))))
      (from_integer P 1, x)).map Prod.fst

/-- `saturated_multiply_accumulate` with its abort site — the unsigned
`parts / div` and `parts % div`, which abort when `div == 0` — made
explicit; the remaining operations are saturating or external
overflow-safe ones. -/
def saturated_multiply_accumulateF (P : FixedParams) (Q : NParams)
    (x int : Int) : Option Int :=
  if castU P (DIV P) = 0 then none
  else some (saturated_multiply_accumulate P Q x int)

/-- All the checked and saturating operations of the kernel, at one input
tuple, abort-free and agreeing with their plain embeddings. -/
def TotalityAt (P : FixedParams) (Q : NParams)
    (x y other int n d : Int) (exp : Nat) : Prop :=
  checked_addF P x y = some (checked_add P x y) ∧
  checked_subF P x y = some (checked_sub P x y) ∧
  checked_mulF P x y = some (checked_mul P x y) ∧
  checked_divF P x y = some (checked_div P x y) ∧
  checked_from_integerF P n = some (checked_from_integer P n) ∧
  checked_from_rationalF P n d = some (checked_from_rational P n d) ∧
  checked_mul_intF P Q x other = some (checked_mul_int P Q x other) ∧
  checked_div_intF P Q x other = some (checked_div_int P Q x other) ∧
  saturating_addF P x y = some (saturating_add P x y) ∧
  saturating_subF P x y = some (saturating_sub P x y) ∧
  saturating_mulF P x y = some (saturating_mul P x y) ∧
  saturating_absF P x = some (saturating_abs P x) ∧
  saturating_mul_intF P Q x other = some (saturating_mul_int P Q x other) ∧
  saturating_powF P x exp = some (saturating_pow P x exp) ∧
  saturated_multiply_accumulateF P Q x int =
    some (saturated_multiply_accumulate P Q x int)

/-- The multiplication contract exactly as the claim words it: decompose
each operand into signum and (true) absolute value, compute
`floor(|x| * |y| / DIV)` in the widened unsigned type, re-apply the
combined sign, and fail exactly when the widened result exceeds 128 bits
or the signed result is unrepresentable. -/
def checked_mul_claim (P : FixedParams) (x y : Int) : Option Int :=
  let s := Int.sign x * Int.sign y
  let q : Nat := x.natAbs * y.natAbs / (DIV P).toNat
  if q < 2 ^ 128 ∧ InRange P ((q : Int) * s) then some ((q : Int) * s)
  else none

/-- The division contract exactly as the claim words it: `none` for a zero
divisor and for `(MIN, from_integer(-1))`, `some 0` for a zero dividend,
otherwise the sign-adjusted `floor(|x| * DIV / |y|)` with true absolute
values, failing only when the signed result is unrepresentable. -/
def checked_div_claim (P : FixedParams) (x y : Int) : Option Int :=
  if y = 0 then none
  else if x = minInner P ∧ y = from_integer P (-1) then none
  else if x = 0 then some 0
  else
    let s := Int.sign x * Int.sign y
    let q : Nat := x.natAbs * (DIV P).toNat / y.natAbs
    if InRange P ((q : Int) * s) then some ((q : Int) * s) else none

end Fixed

namespace Fixed

lemma maxInner_nonneg (P : FixedParams) : 0 ≤ maxInner P := by
  have h : (0 : Int) < 2 ^ (P.bits - 1) := pow_pos (by norm_num) _
  unfold maxInner; omega

lemma minInner_neg (P : FixedParams) : minInner P < 0 := by
  have h : (0 : Int) < 2 ^ (P.bits - 1) := pow_pos (by norm_num) _
  unfold minInner; omega

lemma minInner_le_neg_max (P : FixedParams) : minInner P ≤ -maxInner P := by
  unfold minInner maxInner; omega

lemma minInner_le_max (P : FixedParams) : minInner P ≤ maxInner P :=
  le_trans (le_of_lt (minInner_neg P)) (maxInner_nonneg P)

lemma maxInner_pos (P : FixedParams) (hP : Valid P) : 1 ≤ maxInner P := by
  obtain ⟨h2, -⟩ := hP
  have h : (2 : Int) ^ 1 ≤ 2 ^ (P.bits - 1) := by
    apply pow_le_pow_right₀ (by norm_num); omega
  unfold maxInner; omega

lemma minInner_le_neg_one (P : FixedParams) : minInner P ≤ -1 := by
  have h : (0 : Int) < 2 ^ (P.bits - 1) := pow_pos (by norm_num) _
  unfold minInner; omega

lemma maxInner_lt_pow128 (P : FixedParams) (hP : Valid P) :
    maxInner P < 2 ^ 128 := by
  obtain ⟨-, h128, -⟩ := hP
  have h : (2 : Int) ^ (P.bits - 1) ≤ 2 ^ 127 := by
    apply pow_le_pow_right₀ (by norm_num); omega
  have h2 : (2 : Int) ^ 127 < 2 ^ 128 := by norm_num
  unfold maxInner; omega

lemma maxInner_lt_pow_bits (P : FixedParams) : maxInner P < 2 ^ P.bits := by
  have h : (2 : Int) ^ (P.bits - 1) ≤ 2 ^ P.bits := by
    apply pow_le_pow_right₀ (by norm_num); omega
  unfold maxInner; omega

lemma DIV_pos (P : FixedParams) : 0 < DIV P := by
  unfold DIV; positivity

lemma sign_trich (a : Int) :
    Int.sign a = -1 ∨ Int.sign a = 0 ∨ Int.sign a = 1 := by
  rcases lt_trichotomy a 0 with h | h | h
  · exact Or.inl (Int.sign_eq_neg_one_of_neg h)
  · subst h; right; left; rfl
  · exact Or.inr (Or.inr (Int.sign_eq_one_of_pos h))

lemma sign_mul_sign_bounds (a b : Int) :
    -1 ≤ Int.sign a * Int.sign b ∧ Int.sign a * Int.sign b ≤ 1 := by
  rcases sign_trich a with h | h | h <;> rcases sign_trich b with g | g | g <;>
    rw [h, g] <;> norm_num

lemma castU128_eq (n : Int) (h0 : 0 ≤ n) (h : n < 2 ^ 128) :
    castU128 n = n.toNat := by
  unfold castU128
  rw [Int.emod_eq_of_lt h0 (by exact_mod_cast h)]

lemma castU_eq (P : FixedParams) (n : Int) (h0 : 0 ≤ n)
    (h : n < 2 ^ P.bits) : castU P n = n.toNat := by
  unfold castU
  rw [Int.emod_eq_of_lt h0 (by exact_mod_cast h)]

lemma absSat_nonneg (P : FixedParams) (x : Int) : 0 ≤ absSat P x := by
  unfold absSat saturating_mulInner satOf
  by_cases h : x < 0
  · rw [if_pos h]
    have h1 : (0 : Int) ≤ x * -1 := by nlinarith
    have h2 : 0 ≤ maxInner P := maxInner_nonneg P
    have h3 : minInner P < 0 := minInner_neg P
    rcases le_total (maxInner P) (x * -1) with hc | hc <;> omega
  · rw [if_neg h]; omega

lemma absSat_le (P : FixedParams) (x : Int) (hx : InRange P x) :
    absSat P x ≤ maxInner P := by
  obtain ⟨h1, h2⟩ := hx
  unfold absSat saturating_mulInner satOf
  have h3 : minInner P ≤ maxInner P := minInner_le_max P
  by_cases h : x < 0
  · rw [if_pos h]
    rcases le_total (maxInner P) (x * -1) with hc | hc <;> omega
  · rw [if_neg h]; omega

lemma absSat_lt_pow128 (P : FixedParams) (hP : Valid P) (x : Int)
    (hx : InRange P x) : absSat P x < 2 ^ 128 :=
  lt_of_le_of_lt (absSat_le P x hx) (maxInner_lt_pow128 P hP)

lemma mul_sign_in_range (P : FixedParams) (n s : Int) (h0 : 0 ≤ n)
    (h1 : n ≤ maxInner P) (hs1 : -1 ≤ s) (hs2 : s ≤ 1) :
    InRange P (n * s) := by
  have hl : minInner P ≤ -maxInner P := minInner_le_neg_max P
  constructor
  · nlinarith
  · nlinarith

lemma DIV_toNat_pos (P : FixedParams) : 0 < (DIV P).toNat := by
  have h := DIV_pos P
  omega

lemma castU128_DIV (P : FixedParams) (hP : Valid P) :
    castU128 (DIV P) = (DIV P).toNat := by
  apply castU128_eq _ (le_of_lt (DIV_pos P))
  exact lt_of_le_of_lt hP.2.2.2.1 (maxInner_lt_pow128 P hP)

lemma castU_DIV (P : FixedParams) (hP : Valid P) :
    castU P (DIV P) = (DIV P).toNat := by
  apply castU_eq _ _ (le_of_lt (DIV_pos P))
  exact lt_of_le_of_lt hP.2.2.2.1 (maxInner_lt_pow_bits P)

end Fixed

namespace Fixed

/-- C7: `saturating_abs(min_value()) == max_value()`, and for every other
representable value the result's inner value is the absolute value of the
input's inner value. -/
theorem c7_saturating_abs_spec (P : FixedParams) (hP : Valid P) (x : Int)
    (hx : InRange P x) :
    saturating_abs P (minInner P) = maxInner P ∧
    (x ≠ minInner P → saturating_abs P x = |x|) := by
  constructor
  · simp [saturating_abs]
  · intro hne
    by_cases hneg : x < 0
    · simp only [saturating_abs, if_neg hne, if_pos hneg]
      rw [abs_of_neg hneg]; ring
    · simp only [saturating_abs, if_neg hne, if_neg hneg]
      rw [abs_of_nonneg (le_of_not_lt hneg)]

/-- Witness for C7 at the `Fixed64` instantiation and `x = -5`. -/
theorem c7_saturating_abs_spec_witness :
    Valid P64 ∧ InRange P64 (-5) ∧
    (saturating_abs P64 (minInner P64) = maxInner P64 ∧
      ((-5 : Int) ≠ minInner P64 → saturating_abs P64 (-5) = |(-5 : Int)|)) :=
  ⟨by decide, by decide, c7_saturating_abs_spec P64 (by decide) (-5) (by decide)⟩

/-- C9: `checked_mul` is commutative, including the `none` cases: the
signum product, the magnitude product inside `multiply_by_rational` and
every narrowing test are symmetric in the two operands. -/
theorem c9_checked_mul_comm (P : FixedParams) (x y : Int) :
    checked_mul P x y = checked_mul P y x := by
  have h : multiply_by_rational (castU128 (absSat P x)) (castU128 (absSat P y))
      (castU128 (DIV P)) =
      multiply_by_rational (castU128 (absSat P y)) (castU128 (absSat P x))
      (castU128 (DIV P)) := by
    simp [multiply_by_rational, Nat.mul_comm]
  simp only [checked_mul]
  rw [h, Int.mul_comm (Int.sign x) (Int.sign y)]

/-- C10: the sign-magnitude decomposition saturates at `MIN` (the
`saturating_mul(-1)` clamps `|MIN|` to `MAX`), and consequently
`checked_mul(min_value(), one())` is `Some(from_inner(-MAX))`, which is
not `min_value()`. -/
theorem c10_checked_mul_min_one (P : FixedParams) (hP : Valid P) :
    absSat P (minInner P) = maxInner P ∧
    checked_mul P (minInner P) (one P) = some (from_inner (-(maxInner P))) ∧
    from_inner (-(maxInner P)) ≠ minInner P := by
  have hminneg : minInner P < 0 := minInner_neg P
  have hmaxnn : 0 ≤ maxInner P := maxInner_nonneg P
  have habs : absSat P (minInner P) = maxInner P := by
    unfold absSat saturating_mulInner satOf
    rw [if_pos hminneg]
    have h : minInner P * -1 = maxInner P + 1 := by
      unfold minInner maxInner; ring
    rw [h, min_eq_left (by omega), max_eq_right (by omega)]
  refine ⟨habs, ?_, ?_⟩
  · have hdiv : 0 < DIV P := DIV_pos P
    have honeabs : absSat P (one P) = DIV P := by
      unfold absSat one
      rw [if_neg (not_lt.mpr (le_of_lt hdiv))]
    have hsx : Int.sign (minInner P) = -1 := Int.sign_eq_neg_one_of_neg hminneg
    have hsy : Int.sign (one P) = 1 := Int.sign_eq_one_of_pos hdiv
    have hcastm : castU128 (maxInner P) = (maxInner P).toNat :=
      castU128_eq _ hmaxnn (maxInner_lt_pow128 P hP)
    have hcastd : castU128 (DIV P) = (DIV P).toNat := castU128_DIV P hP
    have hdivN : 0 < (DIV P).toNat := DIV_toNat_pos P
    have hq : (maxInner P).toNat * (DIV P).toNat / (DIV P).toNat =
        (maxInner P).toNat := Nat.mul_div_cancel _ hdivN
    have hqlt : (maxInner P).toNat < 2 ^ 128 := by
      have := maxInner_lt_pow128 P hP
      omega
    have hmbr : multiply_by_rational (castU128 (absSat P (minInner P)))
        (castU128 (absSat P (one P))) (castU128 (DIV P)) =
        some ((maxInner P).toNat) := by
      rw [habs, honeabs, hcastm, hcastd]
      unfold multiply_by_rational
      rw [if_neg (by omega), hq, if_pos hqlt]
    have hcast2 : (((maxInner P).toNat : Nat) : Int) = maxInner P :=
      Int.toNat_of_nonneg hmaxnn
    simp only [checked_mul, hmbr, Option.some_bind]
    rw [hcast2, if_pos (le_refl (maxInner P)), hsx, hsy]
    unfold from_inner
    norm_num
  · unfold from_inner minInner maxInner
    omega

/-- Witness for C10 at the `Fixed64` instantiation. -/
theorem c10_checked_mul_min_one_witness :
    Valid P64 ∧
    (absSat P64 (minInner P64) = maxInner P64 ∧
      checked_mul P64 (minInner P64) (one P64) =
        some (from_inner (-(maxInner P64))) ∧
      from_inner (-(maxInner P64)) ≠ minInner P64) :=
  ⟨by decide, c10_checked_mul_min_one P64 (by decide)⟩

lemma checked_mul_some_range (P : FixedParams) (x y r : Int)
    (h : checked_mul P x y = some r) : InRange P r := by
  simp only [checked_mul] at h
  cases hm : multiply_by_rational (castU128 (absSat P x))
      (castU128 (absSat P y)) (castU128 (DIV P)) with
  | none => rw [hm] at h; simp at h
  | some n =>
    rw [hm] at h
    simp only [Option.some_bind] at h
    by_cases hle : (n : Int) ≤ maxInner P
    · rw [if_pos hle] at h
      obtain ⟨hs1, hs2⟩ := sign_mul_sign_bounds x y
      have hr := mul_sign_in_range P (n : Int) (Int.sign x * Int.sign y)
        (Int.natCast_nonneg n) hle hs1 hs2
      cases h; exact hr
    · rw [if_neg hle] at h; cases h

/-- C6: `saturating_mul` never leaves the representable range; it agrees
with `checked_mul` whenever the latter succeeds, and on overflow it clamps
to `min_value()` when the product of the operands' signums is negative and
to `max_value()` otherwise. -/
theorem c6_saturating_mul_spec (P : FixedParams) (hP : Valid P) (x y : Int)
    (hx : InRange P x) (hy : InRange P y) :
    InRange P (saturating_mul P x y) ∧
    (∀ r, checked_mul P x y = some r → saturating_mul P x y = r) ∧
    (checked_mul P x y = none →
      saturating_mul P x y =
        if Int.sign x * Int.sign y < 0 then minInner P else maxInner P) := by
  cases h : checked_mul P x y with
  | some r =>
    refine ⟨?_, ?_, ?_⟩
    · unfold saturating_mul
      rw [h]
      simp only [Option.getD_some]
      exact checked_mul_some_range P x y r h
    · intro s hs
      have hrs : r = s := Option.some.inj hs
      unfold saturating_mul
      rw [h]
      simp only [Option.getD_some]
      exact hrs
    · intro hnone
      exact absurd hnone (by simp)
  | none =>
    refine ⟨?_, ?_, ?_⟩
    · unfold saturating_mul
      rw [h]
      simp only [Option.getD_none]
      have h1 := minInner_le_max P
      by_cases hneg : Int.sign x * Int.sign y < 0
      · rw [if_pos hneg]; exact ⟨le_refl _, h1⟩
      · rw [if_neg hneg]; exact ⟨h1, le_refl _⟩
    · intro s hs
      exact absurd hs (by simp)
    · intro _
      unfold saturating_mul
      rw [h]
      simp only [Option.getD_none]

/-- Witness for C6 at the `Fixed64` instantiation, on an overflowing
product of two large negative values. -/
theorem c6_saturating_mul_spec_witness :
    Valid P64 ∧ InRange P64 (minInner P64 + 1) ∧
    (InRange P64 (saturating_mul P64 (minInner P64 + 1) (minInner P64 + 1)) ∧
      (∀ r, checked_mul P64 (minInner P64 + 1) (minInner P64 + 1) = some r →
        saturating_mul P64 (minInner P64 + 1) (minInner P64 + 1) = r) ∧
      (checked_mul P64 (minInner P64 + 1) (minInner P64 + 1) = none →
        saturating_mul P64 (minInner P64 + 1) (minInner P64 + 1) =
          if Int.sign (minInner P64 + 1) * Int.sign (minInner P64 + 1) < 0
          then minInner P64 else maxInner P64)) :=
  ⟨by decide, by decide,
    c6_saturating_mul_spec P64 (by decide) (minInner P64 + 1)
      (minInner P64 + 1) (by decide) (by decide)⟩

/-- C1 (amended): `checked_mul` decomposes each operand into signum and
saturated magnitude (`|MIN|` clamps to `MAX`), computes
`floor(lhs * rhs / DIV)` in the widened unsigned type, re-applies the
combined sign, and returns `none` exactly when that magnitude exceeds the
inner `MAX` (which subsumes the widened computation overflowing 128
bits). -/
theorem c1_checked_mul_amended (P : FixedParams) (hP : Valid P) (x y : Int)
    (hx : InRange P x) (hy : InRange P y) :
    checked_mul P x y =
      if (((absSat P x).toNat * (absSat P y).toNat / (DIV P).toNat : Nat) : Int) ≤
          maxInner P
      then some ((((absSat P x).toNat * (absSat P y).toNat / (DIV P).toNat :
          Nat) : Int) * (Int.sign x * Int.sign y))
      else none := by
  have hcx : castU128 (absSat P x) = (absSat P x).toNat :=
    castU128_eq _ (absSat_nonneg P x) (absSat_lt_pow128 P hP x hx)
  have hcy : castU128 (absSat P y) = (absSat P y).toNat :=
    castU128_eq _ (absSat_nonneg P y) (absSat_lt_pow128 P hP y hy)
  have hcd : castU128 (DIV P) = (DIV P).toNat := castU128_DIV P hP
  simp only [checked_mul, hcx, hcy, hcd]
  unfold multiply_by_rational
  rw [if_neg (by have := DIV_toNat_pos P; omega)]
  by_cases hlt : (absSat P x).toNat * (absSat P y).toNat / (DIV P).toNat < 2 ^ 128
  · rw [if_pos hlt]
    simp only [Option.some_bind]
  · rw [if_neg hlt]
    simp only [Option.none_bind]
    rw [if_neg ?hbig]
    case hbig =>
      have h1 : ((2 : Int) ^ 128) ≤
          (((absSat P x).toNat * (absSat P y).toNat / (DIV P).toNat : Nat) : Int) := by
        exact_mod_cast not_lt.mp hlt
      have h2 := maxInner_lt_pow128 P hP
      omega

/-- Witness for the amended C1 at the `Fixed64` instantiation. -/
theorem c1_checked_mul_amended_witness :
    Valid P64 ∧ InRange P64 (from_integer P64 2) ∧
    InRange P64 (from_integer P64 (-3)) ∧
    checked_mul P64 (from_integer P64 2) (from_integer P64 (-3)) =
      (if (((absSat P64 (from_integer P64 2)).toNat *
          (absSat P64 (from_integer P64 (-3))).toNat / (DIV P64).toNat : Nat) :
          Int) ≤ maxInner P64
       then some ((((absSat P64 (from_integer P64 2)).toNat *
          (absSat P64 (from_integer P64 (-3))).toNat / (DIV P64).toNat :
          Nat) : Int) *
          (Int.sign (from_integer P64 2) * Int.sign (from_integer P64 (-3))))
       else none) :=
  ⟨by decide, by decide, by decide,
    c1_checked_mul_amended P64 (by decide) (from_integer P64 2)
      (from_integer P64 (-3)) (by decide) (by decide)⟩

set_option maxRecDepth 8000 in
/-- Counterexample to C1 as stated: at `x = min_value()`, `y = one()` the
claim's formula (true absolute values, sign-adjusted, `none` only on
overflow or unrepresentability) yields `Some(MIN)`, while the code's
saturated decomposition yields `Some(-MAX)`. -/
theorem c1_checked_mul_counterexample :
    checked_mul P64 (minInner P64) (one P64) ≠
      checked_mul_claim P64 (minInner P64) (one P64) := by decide

end Fixed

namespace Fixed

lemma tdiv_sign_eq (a b : Int) (ha : a ≠ 0) (hb : b ≠ 0) :
    Int.tdiv (Int.sign a) (Int.sign b) = Int.sign a * Int.sign b := by
  rcases sign_trich a with h | h | h
  · rcases sign_trich b with g | g | g
    · rw [h, g]; decide
    · exact absurd (Int.sign_eq_zero_iff_zero.mp g) hb
    · rw [h, g]; decide
  · exact absurd (Int.sign_eq_zero_iff_zero.mp h) ha
  · rcases sign_trich b with g | g | g
    · rw [h, g]; decide
    · exact absurd (Int.sign_eq_zero_iff_zero.mp g) hb
    · rw [h, g]; decide

lemma absSat_pos (P : FixedParams) (hP : Valid P) (y : Int)
    (hy : y ≠ 0) : 0 < absSat P y := by
  have hm1 := maxInner_pos P hP
  have hm2 := minInner_neg P
  unfold absSat saturating_mulInner satOf
  by_cases h : y < 0
  · rw [if_pos h]
    have h1 : 1 ≤ y * -1 := by nlinarith
    rcases le_total (maxInner P) (y * -1) with hc | hc <;> omega
  · rw [if_neg h]
    omega

/-- C2 (amended): `checked_div` is empty on a zero divisor and on
`(min_value(), from_integer(-1))`, short-circuits a zero dividend to
`Some(zero)`, and otherwise computes the sign-adjusted
`floor(lhs * DIV / rhs)` over the *saturated* magnitudes (`|MIN|` clamps
to `MAX`), returning `none` exactly when that magnitude exceeds the inner
`MAX`. -/
theorem c2_checked_div_amended (P : FixedParams) (hP : Valid P) (x y : Int)
    (hx : InRange P x) (hy : InRange P y) :
    checked_div P x 0 = none ∧
    checked_div P (minInner P) (from_integer P (-1)) = none ∧
    (y ≠ 0 → checked_div P 0 y = some 0) ∧
    (y ≠ 0 → ¬(x = minInner P ∧ y = from_integer P (-1)) → x ≠ 0 →
      checked_div P x y =
        if (((absSat P x).toNat * (DIV P).toNat / (absSat P y).toNat : Nat) :
            Int) ≤ maxInner P
        then some ((((absSat P x).toNat * (DIV P).toNat /
            (absSat P y).toNat : Nat) : Int) * (Int.sign x * Int.sign y))
        else none) := by
  refine ⟨?_, ?_, ?_, ?_⟩
  · have h0 : Int.sign (0 : Int) = 0 := rfl
    unfold checked_div
    rw [h0, if_pos (Or.inl rfl)]
  · unfold checked_div
    rw [if_pos (Or.inr ⟨rfl, rfl⟩)]
  · intro hy0
    unfold checked_div
    rw [if_neg, if_pos rfl]
    push_neg
    constructor
    · exact fun h => hy0 (Int.sign_eq_zero_iff_zero.mp h)
    · intro h0
      exact absurd h0.symm (ne_of_lt (minInner_neg P))
  · intro hy0 hnm hx0
    unfold checked_div
    rw [if_neg, if_neg hx0]
    · have hcx : castU128 (absSat P x) = (absSat P x).toNat :=
        castU128_eq _ (absSat_nonneg P x) (absSat_lt_pow128 P hP x hx)
      have hcy : castU128 (absSat P y) = (absSat P y).toNat :=
        castU128_eq _ (absSat_nonneg P y) (absSat_lt_pow128 P hP y hy)
      have hcd : castU128 (DIV P) = (DIV P).toNat := castU128_DIV P hP
      simp only [tdiv_sign_eq x y hx0 hy0, hcx, hcy, hcd]
      unfold multiply_by_rational
      have hyc : (absSat P y).toNat ≠ 0 := by
        have := absSat_pos P hP y hy0
        omega
      rw [if_neg hyc]
      by_cases hlt :
          (absSat P x).toNat * (DIV P).toNat / (absSat P y).toNat < 2 ^ 128
      · rw [if_pos hlt]
        simp only [Option.some_bind]
      · rw [if_neg hlt]
        simp only [Option.none_bind]
        rw [if_neg ?hbig2]
        case hbig2 =>
          have h1 : ((2 : Int) ^ 128) ≤
              (((absSat P x).toNat * (DIV P).toNat / (absSat P y).toNat :
                Nat) : Int) := by
            exact_mod_cast not_lt.mp hlt
          have h2 := maxInner_lt_pow128 P hP
          omega
    · push_neg
      constructor
      · exact fun h => hy0 (Int.sign_eq_zero_iff_zero.mp h)
      · intro hxe hye
        exact hnm ⟨hxe, hye⟩

/-- Witness for the amended C2 at the `Fixed64` instantiation. -/
theorem c2_checked_div_amended_witness :
    Valid P64 ∧ InRange P64 (from_integer P64 6) ∧
    InRange P64 (from_integer P64 (-4)) ∧
    (checked_div P64 (from_integer P64 6) 0 = none ∧
      checked_div P64 (minInner P64) (from_integer P64 (-1)) = none ∧
      (from_integer P64 (-4) ≠ 0 → checked_div P64 0 (from_integer P64 (-4)) = some 0) ∧
      (from_integer P64 (-4) ≠ 0 →
        ¬(from_integer P64 6 = minInner P64 ∧
          from_integer P64 (-4) = from_integer P64 (-1)) →
        from_integer P64 6 ≠ 0 →
        checked_div P64 (from_integer P64 6) (from_integer P64 (-4)) =
          if (((absSat P64 (from_integer P64 6)).toNat * (DIV P64).toNat /
              (absSat P64 (from_integer P64 (-4))).toNat : Nat) : Int) ≤ maxInner P64
          then some ((((absSat P64 (from_integer P64 6)).toNat * (DIV P64).toNat /
              (absSat P64 (from_integer P64 (-4))).toNat : Nat) : Int) *
              (Int.sign (from_integer P64 6) * Int.sign (from_integer P64 (-4))))
          else none)) :=
  ⟨by decide, by decide, by decide,
    c2_checked_div_amended P64 (by decide) (from_integer P64 6)
      (from_integer P64 (-4)) (by decide) (by decide)⟩

set_option maxRecDepth 8000 in
/-- Counterexample to C2 as stated: at `x = min_value()`,
`y = from_integer(2)` the claim's formula (true absolute value of the
dividend) yields `Some(-2^62 · DIV / DIV)`-style exact quotient, while the
code's saturated magnitude `MAX` yields one less. -/
theorem c2_checked_div_counterexample :
    checked_div P64 (minInner P64) (from_integer P64 2) ≠
      checked_div_claim P64 (minInner P64) (from_integer P64 2) := by decide

end Fixed

namespace Fixed

lemma satN_of_mem (Q : NParams) (n : Int) (h1 : Q.nmin ≤ n)
    (h2 : n ≤ Q.nmax) : NP.satN Q n = n := by
  unfold NP.satN
  rw [min_eq_right h2, max_eq_right h1]

lemma satOf_eq_self (P : FixedParams) (n : Int) (h : InRange P n) :
    satOf P n = n := by
  unfold satOf
  rw [min_eq_right h.2, max_eq_right h.1]

lemma satOf_of_ge_max (P : FixedParams) (n : Int) (h : maxInner P ≤ n) :
    satOf P n = maxInner P := by
  unfold satOf
  rw [min_eq_left h, max_eq_right (minInner_le_max P)]

lemma satOf_of_le_min (P : FixedParams) (n : Int) (h : n ≤ minInner P) :
    satOf P n = minInner P := by
  unfold satOf
  rw [min_eq_right (le_trans h (minInner_le_max P)), max_eq_left h]

/-- C4: accumulating onto `int` with factor `zero()` returns `int`
unchanged, and with factor `one()` returns `int.saturating_add(int)`. -/
theorem c4_saturated_multiply_accumulate_spec (P : FixedParams)
    (Q : NParams) (hP : Valid P) (hQ : NP.Valid Q) (int : Int)
    (hint : NP.InRangeN Q int) :
    saturated_multiply_accumulate P Q zero int = int ∧
    saturated_multiply_accumulate P Q (one P) int = NP.satAddN Q int int := by
  obtain ⟨hqmin, hqmax⟩ := hQ
  obtain ⟨hint1, hint2⟩ := hint
  have hdc : ((castU P (DIV P) : Nat) : Int) = DIV P := by
    rw [castU_DIV P hP]
    exact Int.toNat_of_nonneg (le_of_lt (DIV_pos P))
  have hdivpos := DIV_pos P
  have hminneg := minInner_neg P
  have hs0 : NP.satN Q 0 = 0 := satN_of_mem Q 0 hqmin (by omega)
  have hs1 : NP.satN Q 1 = 1 := satN_of_mem Q 1 (by omega) hqmax
  have hsint : NP.satN Q int = int := satN_of_mem Q int hint1 hint2
  constructor
  · simp only [saturated_multiply_accumulate, zero, hdc]
    rw [if_neg (by omega : ¬((0 : Int) = minInner P))]
    simp only [abs_zero, Int.zero_tdiv, Int.zero_tmod, Int.zero_emod,
      lt_irrefl, if_false, NP.satMulN, NP.satAddN, NP.satSubN, perthing_mul,
      mul_zero, hs0, add_zero, zero_add, sub_zero, hsint]
  · simp only [saturated_multiply_accumulate, one, hdc]
    rw [if_neg (by omega : ¬(DIV P = minInner P))]
    simp only [abs_of_pos hdivpos, Int.tdiv_self (by omega : DIV P ≠ 0),
      Int.tmod_self, Int.zero_emod, if_pos hdivpos, NP.satMulN, NP.satAddN,
      perthing_mul, hs1, mul_one, hsint, mul_zero, Int.zero_tdiv, add_zero]

/-- Witness for C4 at the `Fixed64` instantiation, `N = i128`, `int = 21`. -/
theorem c4_saturated_multiply_accumulate_spec_witness :
    Valid P64 ∧ NP.Valid NP.Q128 ∧ NP.InRangeN NP.Q128 21 ∧
    (saturated_multiply_accumulate P64 NP.Q128 zero 21 = 21 ∧
      saturated_multiply_accumulate P64 NP.Q128 (one P64) 21 =
        NP.satAddN NP.Q128 21 21) :=
  ⟨by decide, by decide, by decide,
    c4_saturated_multiply_accumulate_spec P64 NP.Q128 (by decide) (by decide)
      21 (by decide)⟩

lemma not_DIV_dvd_pow2 (P : FixedParams) (hP : Valid P) :
    ¬ (DIV P ∣ (2 : Int) ^ (P.bits - 1)) := by
  intro hdvd
  have hp1 : 1 ≤ P.prec := hP.2.2.1
  have h5 : (5 : Int) ∣ DIV P := by
    unfold DIV
    have hpe : P.prec = P.prec - 1 + 1 := by omega
    rw [hpe, pow_succ]
    exact Dvd.dvd.mul_left (by norm_num) _
  have h52 : (5 : Int) ∣ (2 : Int) ^ (P.bits - 1) := dvd_trans h5 hdvd
  have h5n : (5 : Nat) ∣ 2 ^ (P.bits - 1) := by
    have h : ((5 : Nat) : Int) ∣ ((2 ^ (P.bits - 1) : Nat) : Int) := by
      push_cast
      exact h52
    exact_mod_cast h
  have h2 := Nat.Prime.dvd_of_dvd_pow (by norm_num : Nat.Prime 5) h5n
  omega

/-- C5: when `|i| ≤ MaxInner / DIV` the constructed inner value is exactly
`i * DIV`; outside that range `from_integer` saturates to the bound on the
side of `i`'s sign and `checked_from_integer` is empty. -/
theorem c5_from_integer_spec (P : FixedParams) (hP : Valid P) (i : Int)
    (hi : InRange P i) :
    ((i.natAbs : Int) ≤ Int.tdiv (maxInner P) (DIV P) →
      from_integer P i = i * DIV P) ∧
    (Int.tdiv (maxInner P) (DIV P) < (i.natAbs : Int) →
      (0 ≤ i → from_integer P i = maxInner P) ∧
      (i < 0 → from_integer P i = minInner P) ∧
      checked_from_integer P i = none) := by
  have habs : (i.natAbs : Int) = |i| := (Int.abs_eq_natAbs i).symm
  have hdivpos := DIV_pos P
  have htd : Int.tdiv (maxInner P) (DIV P) = maxInner P / DIV P :=
    Int.tdiv_eq_ediv (maxInner_nonneg P) (le_of_lt hdivpos)
  constructor
  · intro hle
    rw [habs, htd] at hle
    have h1 : |i| * DIV P ≤ (maxInner P / DIV P) * DIV P :=
      mul_le_mul_of_nonneg_right hle (le_of_lt hdivpos)
    have h2 : (maxInner P / DIV P) * DIV P ≤ maxInner P :=
      Int.ediv_mul_le (maxInner P) (ne_of_gt hdivpos)
    have h3 : |i * DIV P| = |i| * DIV P := by
      rw [abs_mul, abs_of_pos hdivpos]
    have h4 : i * DIV P ≤ maxInner P := by
      have := le_abs_self (i * DIV P)
      omega
    have h5 : minInner P ≤ i * DIV P := by
      have hc := neg_abs_le (i * DIV P)
      have hd := minInner_le_neg_max P
      omega
    unfold from_integer saturating_mulInner
    exact satOf_eq_self P _ ⟨h5, h4⟩
  · intro hgt
    rw [habs, htd] at hgt
    have hkey : maxInner P < (maxInner P / DIV P + 1) * DIV P :=
      Int.lt_ediv_add_one_mul_self (maxInner P) hdivpos
    refine ⟨?_, ?_, ?_⟩
    · intro hpos
      rw [abs_of_nonneg hpos] at hgt
      have h1 : (maxInner P / DIV P + 1) * DIV P ≤ i * DIV P :=
        mul_le_mul_of_nonneg_right (by omega) (le_of_lt hdivpos)
      unfold from_integer saturating_mulInner
      exact satOf_of_ge_max P _ (by omega)
    · intro hneg
      rw [abs_of_neg hneg] at hgt
      have h1 : (maxInner P / DIV P + 1) * DIV P ≤ -i * DIV P :=
        mul_le_mul_of_nonneg_right (by omega) (le_of_lt hdivpos)
      have h2 : i * DIV P ≤ -(maxInner P + 1) := by
        have : -(i * DIV P) = -i * DIV P := by ring
        omega
      have h3 : -(maxInner P + 1) = minInner P := by
        unfold maxInner minInner; ring
      unfold from_integer saturating_mulInner
      exact satOf_of_le_min P _ (by omega)
    · rcases le_or_lt 0 i with hpos | hneg
      · rw [abs_of_nonneg hpos] at hgt
        have h1 : (maxInner P / DIV P + 1) * DIV P ≤ i * DIV P :=
          mul_le_mul_of_nonneg_right (by omega) (le_of_lt hdivpos)
        unfold checked_from_integer checkedOf
        rw [if_neg]
        intro hin
        have := hin.2
        omega
      · rw [abs_of_neg hneg] at hgt
        have h1 : (maxInner P / DIV P + 1) * DIV P ≤ -i * DIV P :=
          mul_le_mul_of_nonneg_right (by omega) (le_of_lt hdivpos)
        have h2 : i * DIV P ≤ -(maxInner P + 1) := by
          have : -(i * DIV P) = -i * DIV P := by ring
          omega
        have h3 : -(maxInner P + 1) = minInner P := by
          unfold maxInner minInner; ring
        have hne : i * DIV P ≠ minInner P := by
          intro heq
          apply not_DIV_dvd_pow2 P hP
          refine ⟨-i, ?_⟩
          have : -(i * DIV P) = 2 ^ (P.bits - 1) := by
            rw [heq]; unfold minInner; ring
          rw [← this]; ring
        unfold checked_from_integer checkedOf
        rw [if_neg]
        intro hin
        have := hin.1
        omega

/-- Witness for C5 at the `Fixed64` instantiation with the out-of-range
integer `10^10` (the largest representable integer is
`MaxInner / DIV < 10^10`). -/
theorem c5_from_integer_spec_witness :
    Valid P64 ∧ InRange P64 (10 ^ 10) ∧
    ((((10 : Int) ^ 10).natAbs ≤ Int.tdiv (maxInner P64) (DIV P64) →
      from_integer P64 (10 ^ 10) = 10 ^ 10 * DIV P64) ∧
    (Int.tdiv (maxInner P64) (DIV P64) < (((10 : Int) ^ 10).natAbs : Int) →
      (0 ≤ (10 : Int) ^ 10 → from_integer P64 (10 ^ 10) = maxInner P64) ∧
      ((10 : Int) ^ 10 < 0 → from_integer P64 (10 ^ 10) = minInner P64) ∧
      checked_from_integer P64 (10 ^ 10) = none)) :=
  ⟨by decide, by decide,
    c5_from_integer_spec P64 (by decide) (10 ^ 10) (by decide)⟩

end Fixed

namespace Fixed

lemma decDigitsAux_eq (fuel : Nat) : ∀ n : Nat, n ≤ fuel →
    decDigitsAux fuel n = Nat.digits 10 n := by
  induction fuel with
  | zero =>
    intro n h
    have h0 : n = 0 := by omega
    subst h0
    simp [decDigitsAux]
  | succ fuel ih =>
    intro n h
    unfold decDigitsAux
    by_cases h0 : n = 0
    · subst h0; simp
    · rw [if_neg h0]
      have hlt : n / 10 < n := Nat.div_lt_self (Nat.pos_of_ne_zero h0)
        (by norm_num)
      rw [ih (n / 10) (by omega)]
      rw [Nat.digits_def' (by norm_num : 1 < 10) (Nat.pos_of_ne_zero h0)]

lemma decDigitsLE_eq (n : Nat) : decDigitsLE n = Nat.digits 10 n :=
  decDigitsAux_eq n n (le_refl n)

lemma foldl_rev_ofDigits (l : List Nat) : ∀ a : Nat,
    (l.reverse).foldl (fun x d => 10 * x + d) a =
      a * 10 ^ l.length + Nat.ofDigits 10 l := by
  induction l with
  | nil => intro a; simp
  | cons d t ih =>
    intro a
    simp only [List.reverse_cons, List.foldl_append, List.foldl_cons,
      List.foldl_nil, ih, List.length_cons, Nat.ofDigits_cons]
    ring

lemma parseStep_digit (a d : Nat) (hd : d < 10) :
    parseStep (some a) (48 + d) = some (10 * a + d) := by
  unfold parseStep
  rw [Option.some_bind, if_pos ⟨by omega, by omega⟩]
  congr 1
  omega

lemma parse_digits_map (l : List Nat) : (∀ d ∈ l, d < 10) → ∀ a : Nat,
    (l.map (fun d => 48 + d)).foldl parseStep (some a) =
      some (l.foldl (fun x d => 10 * x + d) a) := by
  induction l with
  | nil => intro _ a; simp
  | cons d t ih =>
    intro hl a
    have hd : d < 10 := hl d (List.mem_cons_self d t)
    simp only [List.map_cons, List.foldl_cons, parseStep_digit a d hd]
    exact ih (fun e he => hl e (List.mem_cons_of_mem _ he)) _

lemma parse_decDigits (n : Nat) :
    ((decDigitsLE n).reverse.map (fun d => 48 + d)).foldl parseStep
      (some 0) = some n := by
  rw [decDigitsLE_eq]
  rw [parse_digits_map ((Nat.digits 10 n).reverse)
    (fun d hd => Nat.digits_lt_base (by norm_num) (List.mem_reverse.mp hd)) 0]
  rw [foldl_rev_ofDigits]
  simp [Nat.ofDigits_digits]

lemma try_from_str_head45 (P : FixedParams) (rest : List Nat) :
    try_from_str P (45 :: rest) =
      (if rest = [] then none
       else (rest.foldl parseStep (some 0)).bind (fun v =>
         if InRange P (-(v : Int)) then some (-(v : Int)) else none)) := by
  simp only [try_from_str, true_or, if_true]

lemma try_from_str_head_digit (P : FixedParams) (c : Nat) (rest : List Nat)
    (h45 : c ≠ 45) (h43 : c ≠ 43) :
    try_from_str P (c :: rest) =
      ((c :: rest).foldl parseStep (some 0)).bind (fun v =>
        if InRange P (v : Int) then some (v : Int) else none) := by
  simp only [try_from_str]
  rw [if_neg (show ¬(c = 45 ∨ c = 43) from by tauto)]
  rw [if_neg (List.cons_ne_nil c rest)]
  congr 1
  funext v
  rw [if_neg h45]

/-- C8: serializing a representable value with `get_str` and parsing the
string back with `try_from_str` returns the original value. -/
theorem c8_round_trip (P : FixedParams) (hP : Valid P) (x : Int)
    (hx : InRange P x) : try_from_str P (get_str x) = some x := by
  have hrange0 : InRange P 0 :=
    ⟨le_of_lt (minInner_neg P), maxInner_nonneg P⟩
  by_cases hneg : x < 0
  · have hm : x.natAbs ≠ 0 := Int.natAbs_ne_zero.mpr (ne_of_lt hneg)
    have hmagne : (decDigitsLE x.natAbs).reverse.map (fun d => 48 + d) ≠ [] := by
      rw [decDigitsLE_eq]
      simp only [ne_eq, List.map_eq_nil_iff, List.reverse_eq_nil_iff]
      exact Nat.digits_ne_nil_iff_ne_zero.mpr hm
    simp only [get_str, if_neg hm, if_pos hneg]
    rw [try_from_str_head45 P _]
    rw [if_neg hmagne, parse_decDigits, Option.some_bind]
    have hval : -((x.natAbs : Nat) : Int) = x := by
      have := Int.ofNat_natAbs_of_nonpos (le_of_lt hneg)
      omega
    rw [hval, if_pos hx]
  · by_cases h0 : x.natAbs = 0
    · have hx0 : x = 0 := Int.natAbs_eq_zero.mp h0
      subst hx0
      rw [show get_str 0 = [48] from by decide]
      rw [try_from_str_head_digit P 48 [] (by omega) (by omega)]
      rw [show ([(48 : Nat)].foldl parseStep (some 0)) = some 0 from by
        simp [parseStep]]
      rw [Option.some_bind]
      simp only [Nat.cast_zero]
      rw [if_pos hrange0]
    · cases hmageq : (decDigitsLE x.natAbs).reverse.map (fun d => 48 + d) with
      | nil =>
        rw [decDigitsLE_eq] at hmageq
        simp only [List.map_eq_nil_iff, List.reverse_eq_nil_iff] at hmageq
        exact absurd hmageq (Nat.digits_ne_nil_iff_ne_zero.mpr h0)
      | cons c rest =>
        have hcmem : c ∈ (decDigitsLE x.natAbs).reverse.map
            (fun d => 48 + d) := by
          rw [hmageq]
          exact List.mem_cons_self c rest
        obtain ⟨d, -, hdc⟩ := List.mem_map.mp hcmem
        have hc48 : 48 ≤ c := by omega
        simp only [get_str, if_neg h0, if_neg hneg, hmageq]
        rw [try_from_str_head_digit P c rest (by omega) (by omega)]
        rw [← hmageq, parse_decDigits, Option.some_bind]
        have hval : ((x.natAbs : Nat) : Int) = x :=
          Int.natAbs_of_nonneg (le_of_not_lt hneg)
        rw [hval, if_pos hx]

/-- Witness for C8 at the `Fixed64` instantiation with `x = -12345`. -/
theorem c8_round_trip_witness :
    Valid P64 ∧ InRange P64 (-12345) ∧
    try_from_str P64 (get_str (-12345)) = some (-12345) :=
  ⟨by decide, by decide, c8_round_trip P64 (by decide) (-12345) (by decide)⟩

end Fixed

namespace Fixed

lemma minInner_le_neg_two (P : FixedParams) (hP : Valid P) :
    minInner P ≤ -2 := by
  obtain ⟨h2, -⟩ := hP
  have h : (2 : Int) ^ 1 ≤ 2 ^ (P.bits - 1) := by
    apply pow_le_pow_right₀ (by norm_num)
    omega
  unfold minInner; omega

lemma rawMulF_sign_sign (P : FixedParams) (hP : Valid P) (a b : Int) :
    rawMulF P (Int.sign a) (Int.sign b) = some (Int.sign a * Int.sign b) := by
  obtain ⟨hs1, hs2⟩ := sign_mul_sign_bounds a b
  have h1 := maxInner_pos P hP
  have h2 := minInner_le_neg_one P
  unfold rawMulF
  rw [if_pos ⟨by omega, by omega⟩]

lemma checked_mulF_eq (P : FixedParams) (x y : Int) :
    checked_mulF P x y = some (checked_mul P x y) := by
  simp only [checked_mulF, checked_mul]
  cases hm : multiply_by_rational (castU128 (absSat P x))
      (castU128 (absSat P y)) (castU128 (DIV P)) with
  | none => simp
  | some m =>
    simp only [Option.some_bind]
    by_cases hle : (m : Int) ≤ maxInner P
    · rw [if_pos hle, if_pos hle]
      obtain ⟨hs1, hs2⟩ := sign_mul_sign_bounds x y
      have hr := mul_sign_in_range P (m : Int) (Int.sign x * Int.sign y)
        (Int.natCast_nonneg m) hle hs1 hs2
      unfold rawMulF
      rw [if_pos hr]
      rfl
    · rw [if_neg hle, if_neg hle]

lemma saturating_mulF_eq (P : FixedParams) (hP : Valid P) (x y : Int) :
    saturating_mulF P x y = some (saturating_mul P x y) := by
  unfold saturating_mulF saturating_mul
  rw [checked_mulF_eq]
  simp only [Option.some_bind]
  cases h : checked_mul P x y with
  | some r => simp
  | none =>
    rw [rawMulF_sign_sign P hP x y]
    simp

lemma checked_divF_eq (P : FixedParams) (hP : Valid P) (x y : Int) :
    checked_divF P x y = some (checked_div P x y) := by
  unfold checked_divF checked_div
  by_cases hg : Int.sign y = 0 ∨ (x = minInner P ∧ y = from_integer P (-1))
  · rw [if_pos hg, if_pos hg]
  · rw [if_neg hg, if_neg hg]
    by_cases hx0 : x = 0
    · rw [if_pos hx0, if_pos hx0]
    · rw [if_neg hx0, if_neg hx0]
      have hsy : Int.sign y ≠ 0 := fun h => hg (Or.inl h)
      have hy0 : y ≠ 0 := fun h => hsy (by rw [h]; rfl)
      have hmin2 := minInner_le_neg_two P hP
      have hraw : rawDivF P (Int.sign x) (Int.sign y) =
          some (Int.tdiv (Int.sign x) (Int.sign y)) := by
        unfold rawDivF
        rw [if_neg]
        push_neg
        refine ⟨hsy, ?_⟩
        intro hxs
        rcases sign_trich x with h | h | h <;> rw [h] at hxs <;> omega
      rw [hraw]
      simp only [Option.some_bind]
      cases hm : multiply_by_rational (castU128 (absSat P x))
          (castU128 (DIV P)) (castU128 (absSat P y)) with
      | none => rfl
      | some m =>
        simp only [Option.some_bind]
        by_cases hle : (m : Int) ≤ maxInner P
        · rw [if_pos hle, if_pos hle]
          rw [tdiv_sign_eq x y hx0 hy0]
          obtain ⟨hs1, hs2⟩ := sign_mul_sign_bounds x y
          have hr := mul_sign_in_range P (m : Int) (Int.sign x * Int.sign y)
            (Int.natCast_nonneg m) hle hs1 hs2
          unfold rawMulF
          rw [if_pos hr]
          rfl
        · rw [if_neg hle, if_neg hle]

lemma checked_mul_intF_eq (P : FixedParams) (Q : NParams) (x other : Int) :
    checked_mul_intF P Q x other = some (checked_mul_int P Q x other) := by
  simp only [checked_mul_intF, checked_mul_int]
  by_cases h1 : InRange P other
  · rw [if_pos h1, if_pos h1]
    by_cases h2 : castU P (absSat P x) * castU P (absSat P other) ≤ maxUnsigned P
    · rw [if_pos h2, if_pos h2]
      by_cases h3 : castU P (DIV P) = 0
      · rw [if_pos h3, if_pos h3]
      · rw [if_neg h3, if_neg h3]
        by_cases h4 : ((castU P (absSat P x) * castU P (absSat P other) /
            castU P (DIV P) : Nat) : Int) ≤ maxInner P
        · rw [if_pos h4, if_pos h4]
          obtain ⟨hs1, hs2⟩ := sign_mul_sign_bounds x other
          have hr := mul_sign_in_range P _ (Int.sign x * Int.sign other)
            (Int.natCast_nonneg _) h4 hs1 hs2
          unfold rawMulF
          rw [if_pos hr]
          rfl
        · rw [if_neg h4, if_neg h4]
    · rw [if_neg h2, if_neg h2]
  · rw [if_neg h1, if_neg h1]

lemma saturating_mul_intF_eq (P : FixedParams) (Q : NParams) (hP : Valid P)
    (x other : Int) :
    saturating_mul_intF P Q x other = some (saturating_mul_int P Q x other) := by
  unfold saturating_mul_intF saturating_mul_int
  rw [checked_mul_intF_eq]
  simp only [Option.some_bind]
  cases h : checked_mul_int P Q x other with
  | some r => simp
  | none =>
    rw [rawMulF_sign_sign P hP other x]
    simp

lemma saturating_absF_eq (P : FixedParams) (x : Int) (hx : InRange P x) :
    saturating_absF P x = some (saturating_abs P x) := by
  unfold saturating_absF saturating_abs
  by_cases h1 : x = minInner P
  · rw [if_pos h1, if_pos h1]
  · rw [if_neg h1, if_neg h1]
    by_cases h2 : x < 0
    · rw [if_pos h2, if_pos h2]
      have hmm : minInner P = -(maxInner P) - 1 := by
        unfold minInner maxInner; ring
      obtain ⟨ha, hb⟩ := hx
      unfold rawMulF
      rw [if_pos ⟨by omega, by omega⟩]
    · rw [if_neg h2, if_neg h2]

lemma powStepF_eq (P : FixedParams) (hP : Valid P) (exp : Nat) (i : Nat)
    (st : Int × Int) :
    (if exp.testBit i then saturating_mulF P st.1 st.2
      else some st.1).bind (fun r =>
      (saturating_mulF P st.2 st.2).map (fun p => (r, p))) =
    some (if exp.testBit i then saturating_mul P st.1 st.2 else st.1,
      saturating_mul P st.2 st.2) := by
  by_cases hb : exp.testBit i
  · rw [if_pos hb, if_pos hb, saturating_mulF_eq P hP,
      saturating_mulF_eq P hP]
    rfl
  · rw [if_neg hb, if_neg hb, saturating_mulF_eq P hP]
    rfl

lemma powFoldF_eq (P : FixedParams) (hP : Valid P) (exp : Nat)
    (L : List Nat) : ∀ st : Int × Int,
    L.foldlM (fun st i =>
      (if exp.testBit i then saturating_mulF P st.1 st.2
        else some st.1).bind (fun r =>
        (saturating_mulF P st.2 st.2).map (fun p => (r, p)))) st =
    some (L.foldl (fun st i =>
      (if exp.testBit i then saturating_mul P st.1 st.2 else st.1,
        saturating_mul P st.2 st.2)) st) := by
  induction L with
  | nil => intro st; rfl
  | cons i t ih =>
    intro st
    rw [List.foldlM_cons, List.foldl_cons]
    rw [powStepF_eq P hP exp i st]
    exact ih _

lemma saturating_powF_eq (P : FixedParams) (hP : Valid P) (x : Int)
    (exp : Nat) : saturating_powF P x exp = some (saturating_pow P x exp) := by
  unfold saturating_powF saturating_pow
  by_cases h : exp = 0
  · rw [if_pos h, if_pos h]
  · rw [if_neg h, if_neg h]
    rw [powFoldF_eq P hP exp (List.range (bitLen exp)) (from_integer P 1, x)]
    rfl

lemma smaccF_eq (P : FixedParams) (Q : NParams) (hP : Valid P)
    (x int : Int) :
    saturated_multiply_accumulateF P Q x int =
      some (saturated_multiply_accumulate P Q x int) := by
  unfold saturated_multiply_accumulateF
  rw [if_neg]
  rw [castU_DIV P hP]
  have := DIV_toNat_pos P
  omega

/-- C3: on representable inputs, every checked and saturating operation of
the kernel is abort-free — each panic-instrumented embedding returns
`some` of its plain embedding's result (division-by-zero and every
language-native arithmetic site stay in range). -/
theorem c3_totality (P : FixedParams) (Q : NParams) (hP : Valid P)
    (hQ : NP.Valid Q) (x y other int n d : Int) (exp : Nat)
    (hx : InRange P x) (hy : InRange P y) :
    TotalityAt P Q x y other int n d exp := by
  exact ⟨rfl, rfl, checked_mulF_eq P x y, checked_divF_eq P hP x y, rfl, rfl,
    checked_mul_intF_eq P Q x other, rfl, rfl, rfl,
    saturating_mulF_eq P hP x y, saturating_absF_eq P x hx,
    saturating_mul_intF_eq P Q hP x other, saturating_powF_eq P hP x exp,
    smaccF_eq P Q hP x int⟩

/-- Witness for C3 at the `Fixed64` instantiation, `N = i128`. -/
theorem c3_totality_witness :
    Valid P64 ∧ NP.Valid NP.Q128 ∧ InRange P64 (from_integer P64 2) ∧
    InRange P64 (from_integer P64 (-3)) ∧
    TotalityAt P64 NP.Q128 (from_integer P64 2) (from_integer P64 (-3))
      7 11 5 3 4 :=
  ⟨by decide, by decide, by decide, by decide,
    c3_totality P64 NP.Q128 (by decide) (by decide) (from_integer P64 2)
      (from_integer P64 (-3)) 7 11 5 3 4 (by decide) (by decide)⟩

end Fixed
